import Mathlib

/-!
Verification of the meal-planner application (src/main.py).

The program is a single-file desktop app; its computational core is
embedded here shallowly:
* strings are lists of characters; Python str.strip and str.split
  (with a non-empty separator) are modelled by pyStrip and splitL;
* the plan-entry encoding of MealPlannerApp._apply_meal and the decoding
  of MealPlannerApp._select_day / _repopulate_rows_from_plan are
  encode_entry and decode_parts / decode_entry;
* the calendar grid of _refresh_month together with calendar.monthrange
  is month_grid;
* the per-week export grid of _export_excel is week_days / menu_rows /
  week_menu_rows, with plan_to_items;
* the slot model (_default_slots, the slot loading in _select_day,
  _remove_slot) and the day-selection state transition are select_day_slots,
  remove_slot, select_day over AppState;
* the storage layer (load_all, load_menus_legacy, load_plan_legacy) is
  modelled over a small JSON value type and an abstract per-file state,
  with Python exceptions as Except.
-/

/-- Model of Python str.strip over lists of characters: drop whitespace
from both ends. -/
def pyStrip (s : List Char) : List Char :=
  ((s.dropWhile Char.isWhitespace).reverse.dropWhile Char.isWhitespace).reverse

/-- If sep is a leading segment of s, return the remainder, else none. -/
def chop? : List Char → List Char → Option (List Char)
  | [], s => some s
  | _ :: _, [] => none
  | a :: as, b :: bs => if a = b then chop? as bs else none

/-- Fuel-driven worker for splitL; with fuel above the length of s it
computes Python str.split with a non-empty separator. -/
def splitFuel (sep : List Char) : Nat → List Char → List (List Char)
  | 0, s => [s]
  | fuel + 1, s =>
    match chop? sep s with
    | some r => [] :: splitFuel sep fuel r
    | none =>
      match s with
      | [] => [[]]
      | c :: rest =>
        match splitFuel sep fuel rest with
        | [] => [[c]]
        | t :: ts => (c :: t) :: ts

/-- Model of Python s.split(sep) for a non-empty separator sep: leftmost,
non-overlapping occurrences; the empty string yields one empty segment. -/
def splitL (sep s : List Char) : List (List Char) :=
  splitFuel sep (s.length + 1) s

/-- The fixed category list of main.py (CATEGORIES, line 54). -/
def CATEGORIES : List String := ["주식", "국/스프", "반찬", "기타"]

/-- The category separator of the encoded plan line (main.py line 623). -/
def SEP_CAT : List Char := [' ', '|', ' ']

/-- The item separator within one category segment (main.py line 620). -/
def SEP_ITEM : List Char := [',']

/-- Encoding of a per-category selection into one plan line, as performed
by MealPlannerApp._apply_meal (main.py lines 607-627): per category the
slot values are stripped, empty ones dropped, the rest joined by a comma;
the category segments are joined by the category separator. -/
def encode_entry (x : List (List (List Char))) : List Char :=
  List.intercalate SEP_CAT
    (x.map (fun cat =>
      List.intercalate SEP_ITEM ((cat.map pyStrip).filter (fun v => !v.isEmpty))))

/-- Decoding, first stage, as in MealPlannerApp._select_day (main.py lines
584-590) and _repopulate_rows_from_plan (lines 377-379): split on the
category separator, strip every part; with fewer parts than categories,
prepend one empty segment and append empty segments up to the category
count; otherwise keep the first four parts. -/
def decode_parts (line : List Char) : List (List Char) :=
  if ((splitL SEP_CAT line).map pyStrip).length < CATEGORIES.length then
    (([[]] ++ (splitL SEP_CAT line).map pyStrip) ++
        List.replicate
          (CATEGORIES.length - ((splitL SEP_CAT line).map pyStrip).length - 1)
          []).take CATEGORIES.length
  else
    ((splitL SEP_CAT line).map pyStrip).take CATEGORIES.length

/-- Decoding, second stage, for one category segment (main.py line 592):
split on the comma, strip each piece, keep the non-empty ones; an empty
result is replaced by a single empty value. -/
def decode_seg (p : List Char) : List (List Char) :=
  if (((splitL SEP_ITEM (pyStrip p)).map pyStrip).filter (fun s => !s.isEmpty)).isEmpty then
    [[]]
  else
    ((splitL SEP_ITEM (pyStrip p)).map pyStrip).filter (fun s => !s.isEmpty)

/-- Full decoding of a stored plan line into the per-category slot values
(main.py lines 584-596). -/
def decode_entry (line : List Char) : List (List (List Char)) :=
  (decode_parts line).map decode_seg

/-- plan_to_items of _export_excel (main.py lines 414-424): flatten a plan
line into the ordered list of all selected items across categories. -/
def plan_to_items (line : List Char) : List (List Char) :=
  if (pyStrip line).isEmpty then []
  else
    (splitL SEP_CAT line).flatMap
      (fun part => ((splitL SEP_ITEM part).map pyStrip).filter (fun x => !x.isEmpty))

/-- The leading-segment relation used throughout the split lemmas. -/
def pfx (p s : List Char) : Prop := ∃ t, p ++ t = s

/-! ### Calendar model (calendar.monthrange and _refresh_month) -/

/-- Gregorian leap-year rule, as used by Python's calendar module. -/
def isLeap (y : Nat) : Bool :=
  (y % 4 == 0 && !(y % 100 == 0)) || y % 400 == 0

def daysInMonth (y m : Nat) : Nat :=
  if m = 2 then (if isLeap y then 29 else 28)
  else if m = 4 ∨ m = 6 ∨ m = 9 ∨ m = 11 then 30
  else 31

/-- Days in all years before year y of the proleptic Gregorian calendar. -/
def daysBeforeYear (y : Nat) : Nat :=
  365 * (y - 1) + (y - 1) / 4 - (y - 1) / 100 + (y - 1) / 400

/-- Days in the months of year y before month m. -/
def daysBeforeMonth (y m : Nat) : Nat :=
  ((List.range (m - 1)).map (fun i => daysInMonth y (i + 1))).sum

/-- Python calendar.monthrange: the weekday of day 1 (Monday is 0, Sunday
is 6) and the number of days of the month. -/
def monthrange (y m : Nat) : Nat × Nat :=
  ((daysBeforeYear y + daysBeforeMonth y m + 7) % 7, daysInMonth y m)

/-- The day grid built by _refresh_month (main.py lines 524-548): each day
of the month is placed at grid row 1 + pos / 7 and grid column pos % 7,
where pos = first_weekday + (day - 1) and first_weekday comes straight
from calendar.monthrange. Entries are (day, row, column). -/
def month_grid (y m : Nat) : List (Nat × Nat × Nat) :=
  (List.range (monthrange y m).2).map (fun i =>
    (i + 1, 1 + ((monthrange y m).1 + i) / 7, ((monthrange y m).1 + i) % 7))

/-- The weekday header row of the calendar and of the export sheet
(main.py lines 291 and 438): Sunday-first. -/
def WEEK_HEADERS : List String := ["일", "월", "화", "수", "목", "금", "토"]

/-! ### Export model (_export_excel) -/

/-- One calendar week of _export_excel (main.py lines 448-455): for each of
the 7 columns, the day number (none for cells outside the month) and the
flattened list of that day's selected items. -/
def week_days (plan : List (String × List Char)) (fw nd wr : Nat) :
    List (Option Nat × List (List Char)) :=
  (List.range 7).map (fun col =>
    if fw ≤ wr * 7 + col ∧ wr * 7 + col < fw + nd then
      (some (wr * 7 + col - fw + 1),
        plan_to_items ((plan.lookup (toString (wr * 7 + col - fw + 1))).getD []))
    else (none, []))

/-- Menu row count of one week (main.py line 456). -/
def menu_rows (wd : List (Option Nat × List (List Char))) : Nat :=
  max 3 ((wd.map (fun p => p.2.length)).foldl max 0)

/-- The menu rows emitted for one week (main.py lines 467-473): menu_rows
rows of 7 cells; the cell in row r for a day holds that day's r-th item,
or stays blank when the day has fewer items. -/
def week_menu_rows (wd : List (Option Nat × List (List Char))) :
    List (List (List Char)) :=
  (List.range (menu_rows wd)).map (fun r =>
    (List.range 7).map (fun col =>
      if r < ((wd.getD col (none, [])).2).length
      then ((wd.getD col (none, [])).2).getD r []
      else []))

/-! ### Slot model and day selection (MealPlannerApp state) -/

/-- _default_slots of main.py lines 57-58: one row per category. -/
def _default_slots : List (String × Int) := CATEGORIES.map (fun c => (c, 1))

/-- The slot-count loading of _select_day (main.py lines 574-579): a saved
non-empty mapping is read with a per-category floor of 1; otherwise the
defaults are used. -/
def select_day_slots : Option (List (String × Int)) → List (String × Int)
  | some d =>
    if d.isEmpty then _default_slots
    else CATEGORIES.map (fun c => (c, max 1 ((d.lookup c).getD 1)))
  | none => _default_slots

/-- _remove_slot (main.py lines 349-357): refuses (returns none) when the
category's current count is at most 1, otherwise decrements it. -/
def remove_slot (slots : List (String × Int)) (cat : String) :
    Option (List (String × Int)) :=
  if (slots.lookup cat).getD 1 ≤ 1 then none
  else some (slots.map (fun p => if p.1 = cat then (p.1, p.2 - 1) else p))

/-- _build_category_rows (main.py lines 318-339): one empty selection
variable per category and slot. -/
def build_category_rows (slots : List (String × Int)) :
    List ((String × Nat) × List Char) :=
  CATEGORIES.flatMap (fun c =>
    (List.range ((slots.lookup c).getD 1).toNat).map
      (fun s => ((c, s), ([] : List Char))))

/-- The variable filling of _select_day (main.py lines 591-596): slot s of
category i shows the s-th decoded value of segment i, or stays empty. -/
def fill_rows (slots : List (String × Int)) (vals : List (List (List Char))) :
    List ((String × Nat) × List Char) :=
  CATEGORIES.enum.flatMap (fun ic =>
    (List.range ((slots.lookup ic.2).getD 1).toNat).map
      (fun s => ((ic.2, s), (vals.getD ic.1 []).getD s [])))

/-- _month_key (main.py lines 498-499). -/
def month_key (y m : Nat) : String :=
  toString y ++ "-" ++ (if m < 10 then "0" ++ toString m else toString m)

/-- The in-memory state of MealPlannerApp that the day-selection and
editing handlers touch. -/
structure AppState where
  menus : List (String × List String)
  plans : List (String × List (String × List Char))
  day_slots : List (String × List (String × List (String × Int)))
  slots_per_category : List (String × Int)
  selected_day : Option Nat
  category_vars : List ((String × Nat) × List Char)
  current_year : Nat
  current_month : Nat

/-- _hide_right_panel (main.py lines 392-399): clears the selection. -/
def hide_right_panel (st : AppState) : AppState :=
  { st with selected_day := none }

/-- An edit of one selection control: only the corresponding variable of
category_vars changes. -/
def edit_var (st : AppState) (k : String × Nat) (v : List Char) : AppState :=
  { st with category_vars :=
      st.category_vars.map (fun p => if p.1 = k then (p.1, v) else p) }

/-- _select_day (main.py lines 561-605): re-clicking the selected day
closes the panel; picking another day loads that day's slot counts and
decoded plan entry into the selection controls. -/
def select_day (st : AppState) (day : Nat) : AppState :=
  if st.selected_day = some day then hide_right_panel st
  else
    let key := month_key st.current_year st.current_month
    let saved := ((st.day_slots.lookup key).getD []).lookup (toString day)
    let slots := select_day_slots saved
    let current := (((st.plans.lookup key).getD []).lookup (toString day)).getD []
    { st with
      selected_day := some day
      slots_per_category := slots
      category_vars :=
        if current.isEmpty then build_category_rows slots
        else fill_rows slots (decode_entry current) }

/-! ### Storage model (load_all and the legacy loaders) -/

/-- JSON documents as the storage files can hold them. -/
inductive Json where
  | null : Json
  | bool : Bool → Json
  | num : Int → Json
  | str : String → Json
  | arr : List Json → Json
  | obj : List (String × Json) → Json

/-- Python truthiness of a JSON-derived value. -/
def truthy : Json → Bool
  | .null => false
  | .bool b => b
  | .num n => n != 0
  | .str s => s != ""
  | .arr xs => !xs.isEmpty
  | .obj fs => !fs.isEmpty

/-- The observable state of one data file: absent, unreadable (IOError on
read), unparseable text (JSONDecodeError), or a parsed document. -/
inductive FileState where
  | missing : FileState
  | unreadable : FileState
  | invalid : FileState
  | doc : Json → FileState

/-- The three data files of main.py lines 42-44: data.json, menus.json,
meal_plan.json. -/
structure FS where
  data : FileState
  menus : FileState
  plan : FileState

/-- Python exceptions that escape the loaders. -/
inductive PyErr where
  | typeError : PyErr
  | attributeError : PyErr

/-- DEFAULT_MENUS of main.py lines 47-52. -/
def DEFAULT_MENUS : List (String × Json) :=
  [("주식", .arr [.str "밥", .str "현미밥", .str "잡곡밥", .str "죽", .str "라면",
      .str "짜장면", .str "칼국수", .str "비빔밥", .str "덮밥", .str "국밥"]),
   ("국/스프", .arr [.str "미역국", .str "된장국", .str "김치찌개", .str "된장찌개",
      .str "순두부찌개", .str "배추국", .str "콩나물국", .str "우동", .str "만두국",
      .str "스프"]),
   ("반찬", .arr [.str "김치", .str "나물", .str "계란말이", .str "제육볶음",
      .str "멸치볶음", .str "감자조림", .str "두부조림", .str "시금치나물",
      .str "깻잎지", .str "오이무침"]),
   ("기타", .arr [.str "샐러드", .str "과일", .str "유제품", .str "과자", .str "떡",
      .str "김밥", .str "삼각김밥", .str "도시락", .str "외식", .str "기타"])]

/-- Python dict assignment d[k] = v: replaces in place or appends. -/
def dictSet (d : List (String × Json)) (k : String) (v : Json) :
    List (String × Json) :=
  if (d.lookup k).isSome then d.map (fun p => if p.1 = k then (k, v) else p)
  else d ++ [(k, v)]

/-- One iteration of the default-merge loop (main.py lines 77-79, 95-97):
a category that is absent or falsy gets the built-in default list. -/
def mergeStep (acc : List (String × Json)) (c : String) : List (String × Json) :=
  if truthy ((acc.lookup c).getD .null) then acc
  else dictSet acc c ((DEFAULT_MENUS.lookup c).getD .null)

/-- The whole default-merge loop over the four categories. -/
def mergeDefaults (d : List (String × Json)) : List (String × Json) :=
  CATEGORIES.foldl mergeStep d

/-- load_menus_legacy (main.py lines 89-101). A parsed non-object document
makes the uncaught category loop raise a TypeError. -/
def load_menus_legacy : FileState → Except PyErr Json
  | .doc (.obj mf) => .ok (.obj (mergeDefaults mf))
  | .doc _ => .error .typeError
  | _ => .ok (.obj DEFAULT_MENUS)

/-- load_plan_legacy (main.py lines 104-112): returns whatever document the
file holds, or a fresh empty plan wrapper. -/
def load_plan_legacy : FileState → Json
  | .doc j => j
  | _ => .obj [("plans", .obj [])]

/-- The legacy branch of load_all (main.py lines 83-86): plan_data.get
raises an AttributeError when the legacy plan document is not an object. -/
def load_fallback (mfs pfs : FileState) : Except PyErr (Json × Json × Json) :=
  match load_menus_legacy mfs with
  | .error e => .error e
  | .ok menus =>
    match load_plan_legacy pfs with
    | .obj pf => .ok (menus, (pf.lookup "plans").getD (.obj []), .obj [])
    | _ => .error .attributeError

/-- load_all (main.py lines 61-86). Only JSONDecodeError and IOError are
caught; data.get on a parsed non-object document raises an AttributeError,
and a truthy non-object menus value makes the category loop raise. -/
def load_all (fs : FS) : Except PyErr (Json × Json × Json) :=
  match fs.data with
  | .doc (.obj d) =>
    if truthy ((d.lookup "menus").getD .null) then
      match (d.lookup "menus").getD .null with
      | .obj mf =>
        .ok (.obj (mergeDefaults mf),
          (d.lookup "plans").getD (.obj []),
          match (d.lookup "day_slots").getD (.obj []) with
          | .obj ds => .obj ds
          | _ => .obj [])
      | _ => .error .typeError
    else load_fallback fs.menus fs.plan
  | .doc _ => .error .attributeError
  | _ => load_fallback fs.menus fs.plan

/-- A file whose document, when present and parsed, is a JSON object. -/
def isObjOrAbsent : FileState → Bool
  | .doc (.obj _) => true
  | .doc _ => false
  | _ => true

/-- A consolidated file whose parsed document is an object and whose menus
field, when truthy, is an object. -/
def consOk : FileState → Bool
  | .doc (.obj d) =>
    match (d.lookup "menus").getD .null with
    | .obj _ => true
    | m => !truthy m
  | .doc _ => false
  | _ => true

/-! ### Facts about chop? and splitL -/

/-- chop? succeeds exactly on lists that start with the separator. -/
theorem chop?_eq_some {sep s r : List Char} : chop? sep s = some r ↔ s = sep ++ r := by
  induction sep generalizing s with
  | nil => simp [chop?, eq_comm]
  | cons a as ih =>
    cases s with
    | nil => simp [chop?]
    | cons b bs =>
      by_cases hab : a = b
      · subst hab
        simp [chop?, ih]
      · simp [chop?, hab]
        intro hba
        exact absurd hba.symm hab

theorem chop?_eq_none {sep s : List Char} : chop? sep s = none ↔ ¬ pfx sep s := by
  constructor
  · rintro h ⟨t, ht⟩
    have hsome : chop? sep s = some t := chop?_eq_some.mpr ht.symm
    rw [h] at hsome
    exact Option.noConfusion hsome
  · intro h
    cases hc : chop? sep s with
    | none => rfl
    | some r => exact absurd ⟨r, (chop?_eq_some.mp hc).symm⟩ h

/-- With enough fuel, splitFuel does not depend on the exact fuel value. -/
theorem splitFuel_congr {a : Char} {as : List Char} :
    ∀ (f g : Nat) (s : List Char), s.length < f → s.length < g →
      splitFuel (a :: as) f s = splitFuel (a :: as) g s := by
  intro f
  induction f with
  | zero => intro g s hf _; omega
  | succ f ih =>
    intro g s hf hg
    cases g with
    | zero => omega
    | succ g =>
      simp only [splitFuel]
      cases hc : chop? (a :: as) s with
      | some r =>
        have hs : s = (a :: as) ++ r := chop?_eq_some.mp hc
        have hr : r.length < s.length := by
          subst hs
          simp only [List.length_append, List.length_cons]
          omega
        dsimp only
        rw [ih g r (by omega) (by omega)]
      | none =>
        cases s with
        | nil => rfl
        | cons c rest =>
          dsimp only
          rw [ih g rest (by simp at hf; omega) (by simp at hg; omega)]

theorem splitL_nil (a : Char) (as : List Char) : splitL (a :: as) [] = [[]] := rfl

/-- Unfolding splitL when the string starts with the separator. -/
theorem splitL_chop {a : Char} {as s r : List Char}
    (hc : chop? (a :: as) s = some r) :
    splitL (a :: as) s = [] :: splitL (a :: as) r := by
  have hs : s = (a :: as) ++ r := chop?_eq_some.mp hc
  have hr : r.length < s.length := by
    subst hs
    simp only [List.length_append, List.length_cons]
    omega
  unfold splitL
  simp only [splitFuel, hc]
  rw [splitFuel_congr s.length (r.length + 1) r (by omega) (by omega)]
  simp only [splitFuel]

/-- Unfolding splitL when the string does not start with the separator. -/
theorem splitL_nochop {a : Char} {as : List Char} {c : Char} {rest : List Char}
    (hc : chop? (a :: as) (c :: rest) = none) :
    splitL (a :: as) (c :: rest) =
      match splitL (a :: as) rest with
      | [] => [[c]]
      | t :: ts => (c :: t) :: ts := by
  unfold splitL
  simp only [List.length_cons, splitFuel, hc]

theorem intercalate_single (sep p : List Char) : List.intercalate sep [p] = p := by
  simp [List.intercalate]

theorem intercalate_cons₂ (sep p q : List Char) (rest : List (List Char)) :
    List.intercalate sep (p :: q :: rest) = p ++ sep ++ List.intercalate sep (q :: rest) := by
  simp [List.intercalate, List.intersperse]

/-- Splitting a string with no separator occurrence returns the string whole. -/
theorem split_single {a : Char} {as l : List Char}
    (H : ∀ u, (∃ w, w ++ u = l) → u ≠ [] → ¬ pfx (a :: as) u) :
    splitL (a :: as) l = [l] := by
  induction l with
  | nil => exact splitL_nil a as
  | cons c t ih =>
    have hc : chop? (a :: as) (c :: t) = none :=
      chop?_eq_none.mpr (H (c :: t) ⟨[], rfl⟩ (by simp))
    rw [splitL_nochop hc]
    rw [ih ?_]
    · rintro u ⟨w, hw⟩ hu
      exact H u ⟨c :: w, by rw [List.cons_append, hw]⟩ hu

/-- Splitting a string of the form l ++ sep ++ t peels off l when no
occurrence of the separator starts inside l. -/
theorem split_glue {a : Char} {as t : List Char} :
    ∀ l : List Char,
      (∀ u, (∃ w, w ++ u = l) → u ≠ [] → ¬ pfx (a :: as) (u ++ (a :: as) ++ t)) →
      splitL (a :: as) (l ++ (a :: as) ++ t) = l :: splitL (a :: as) t := by
  intro l
  induction l with
  | nil =>
    intro _
    have hc : chop? (a :: as) ((a :: as) ++ t) = some t := chop?_eq_some.mpr rfl
    simp only [List.nil_append]
    rw [splitL_chop hc]
  | cons c l' ih =>
    intro H
    have hne : ¬ pfx (a :: as) ((c :: l') ++ (a :: as) ++ t) :=
      H (c :: l') ⟨[], rfl⟩ (by simp)
    have hassoc : (c :: l') ++ (a :: as) ++ t = c :: (l' ++ (a :: as) ++ t) := by
      simp
    have hc : chop? (a :: as) (c :: (l' ++ (a :: as) ++ t)) = none := by
      rw [chop?_eq_none, ← hassoc]
      exact hne
    rw [hassoc, splitL_nochop hc]
    rw [ih ?_]
    · rintro u ⟨w, hw⟩ hu
      exact H u ⟨c :: w, by rw [List.cons_append, hw]⟩ hu

/-- splitL is a left inverse of intercalate for segments inside which no
occurrence of the separator can start. -/
theorem split_join {a : Char} {as : List Char} :
    ∀ parts : List (List Char), parts ≠ [] →
      (∀ p ∈ parts, ∀ u, (∃ w, w ++ u = p) → u ≠ [] →
        (¬ pfx (a :: as) u) ∧ ∀ t, ¬ pfx (a :: as) (u ++ (a :: as) ++ t)) →
      splitL (a :: as) (List.intercalate (a :: as) parts) = parts := by
  intro parts
  induction parts with
  | nil => intro h _; exact absurd rfl h
  | cons p ps ih =>
    intro _ H
    cases ps with
    | nil =>
      rw [intercalate_single]
      exact split_single (fun u hu hu2 => (H p (by simp) u hu hu2).1)
    | cons q rest =>
      rw [intercalate_cons₂]
      rw [split_glue p (fun u hu hu2 => (H p (by simp) u hu hu2).2 _)]
      rw [ih (by simp) (fun r hr => H r (by simp [hr]))]

/-- Characters of an intercalation come from the separator or a segment. -/
theorem mem_intercalate {sep : List Char} {c : Char} :
    ∀ {items : List (List Char)}, c ∈ List.intercalate sep items →
      c ∈ sep ∨ ∃ i ∈ items, c ∈ i := by
  intro items
  induction items with
  | nil => intro hc; simp [List.intercalate] at hc
  | cons p ps ih =>
    intro hc
    cases ps with
    | nil =>
      rw [intercalate_single] at hc
      exact Or.inr ⟨p, by simp, hc⟩
    | cons q rest =>
      rw [intercalate_cons₂] at hc
      rcases List.mem_append.mp hc with h | h
      · rcases List.mem_append.mp h with h2 | h2
        · exact Or.inr ⟨p, by simp, h2⟩
        · exact Or.inl h2
      · rcases ih h with h3 | ⟨i, hi, hci⟩
        · exact Or.inl h3
        · exact Or.inr ⟨i, by simp [hi], hci⟩

/-- A comma-free segment admits no comma-separator occurrence, not even one
overlapping its end. -/
theorem comma_cond {p : List Char} (hp : (',' : Char) ∉ p) :
    ∀ u, (∃ w, w ++ u = p) → u ≠ [] →
      (¬ pfx SEP_ITEM u) ∧ ∀ t, ¬ pfx SEP_ITEM (u ++ SEP_ITEM ++ t) := by
  rintro u ⟨w, hw⟩ hu
  have hmem : ∀ d, d ∈ u → d ∈ p := by
    intro d hd
    rw [← hw]
    exact List.mem_append_right w hd
  constructor
  · rintro ⟨t, ht⟩
    have : (',' : Char) ∈ u := by
      rw [← ht]; simp [SEP_ITEM]
    exact hp (hmem _ this)
  · rintro t ⟨t2, ht⟩
    cases u with
    | nil => exact hu rfl
    | cons x u' =>
      simp only [SEP_ITEM, List.cons_append, List.nil_append, List.cons.injEq] at ht
      have hx : (',' : Char) = x := ht.1
      exact hp (hmem ',' (by rw [hx]; exact List.mem_cons_self x u'))

/-- A bar-free segment admits no category-separator occurrence, not even one
overlapping its end. -/
theorem sepcat_cond {p : List Char} (hp : ('|' : Char) ∉ p) :
    ∀ u, (∃ w, w ++ u = p) → u ≠ [] →
      (¬ pfx SEP_CAT u) ∧ ∀ t, ¬ pfx SEP_CAT (u ++ SEP_CAT ++ t) := by
  rintro u ⟨w, hw⟩ hu
  have hmem : ∀ d, d ∈ u → d ∈ p := by
    intro d hd
    rw [← hw]
    exact List.mem_append_right w hd
  constructor
  · rintro ⟨t, ht⟩
    have : ('|' : Char) ∈ u := by
      rw [← ht]; simp [SEP_CAT]
    exact hp (hmem _ this)
  · rintro t ⟨t2, ht⟩
    cases u with
    | nil => exact hu rfl
    | cons x u' =>
      cases u' with
      | nil =>
        simp only [SEP_CAT, List.cons_append, List.nil_append, List.cons.injEq] at ht
        exact absurd ht.2.1 (by decide)
      | cons y u'' =>
        simp only [SEP_CAT, List.cons_append, List.nil_append, List.cons.injEq] at ht
        have hy : ('|' : Char) = y := ht.2.1
        exact hp (hmem '|' (by rw [hy]; exact List.mem_cons_of_mem x (List.mem_cons_self y u'')))

/-! ### Facts about pyStrip -/

theorem length_dropWhile_le (p : Char → Bool) (l : List Char) :
    (l.dropWhile p).length ≤ l.length := by
  induction l with
  | nil => simp
  | cons c t ih =>
    simp only [List.dropWhile_cons]
    split
    · exact Nat.le_trans ih (Nat.le_succ _)
    · simp

theorem dropWhile_length_eq {p : Char → Bool} {l : List Char}
    (h : (l.dropWhile p).length = l.length) : l.dropWhile p = l := by
  cases l with
  | nil => rfl
  | cons c t =>
    by_cases hc : p c = true
    · rw [List.dropWhile_cons, if_pos hc, List.length_cons] at h
      have hle := length_dropWhile_le p t
      exact absurd h (by omega)
    · rw [List.dropWhile_cons, if_neg hc]

theorem pyStrip_length_le_dropWhile (l : List Char) :
    (pyStrip l).length ≤ (l.dropWhile Char.isWhitespace).length := by
  unfold pyStrip
  rw [List.length_reverse]
  calc (((l.dropWhile Char.isWhitespace).reverse).dropWhile Char.isWhitespace).length
      ≤ (l.dropWhile Char.isWhitespace).reverse.length := length_dropWhile_le _ _
    _ = (l.dropWhile Char.isWhitespace).length := List.length_reverse _

/-- A string unchanged by stripping does not start with whitespace. -/
theorem ws_head_false {l : List Char} {c : Char} (hs : pyStrip l = l)
    (hc : l.head? = some c) : c.isWhitespace = false := by
  cases l with
  | nil => exact Option.noConfusion hc
  | cons d t =>
    have hd : d = c := by simpa using hc
    subst hd
    by_cases hw : d.isWhitespace = true
    · exfalso
      have h1 : ((d :: t).dropWhile Char.isWhitespace).length ≤ t.length := by
        rw [List.dropWhile_cons, if_pos hw]
        exact length_dropWhile_le _ _
      have h2 := pyStrip_length_le_dropWhile (d :: t)
      have h3 : (pyStrip (d :: t)).length = t.length + 1 := by rw [hs]; simp
      omega
    · simp only [Bool.not_eq_true] at hw
      exact hw

/-- A string unchanged by stripping does not end with whitespace. -/
theorem ws_last_false {l : List Char} {c : Char} (hs : pyStrip l = l)
    (hc : l.reverse.head? = some c) : c.isWhitespace = false := by
  have hlen1 : (l.dropWhile Char.isWhitespace).length = l.length := by
    have h2 := pyStrip_length_le_dropWhile l
    have h3 := length_dropWhile_le Char.isWhitespace l
    rw [hs] at h2
    omega
  have hdw : l.dropWhile Char.isWhitespace = l := dropWhile_length_eq hlen1
  have hs2 : ((l.reverse.dropWhile Char.isWhitespace)).reverse = l := by
    unfold pyStrip at hs
    rw [hdw] at hs
    exact hs
  have hs3 : l.reverse.dropWhile Char.isWhitespace = l.reverse := by
    have hrr := congrArg List.reverse hs2
    rwa [List.reverse_reverse] at hrr
  cases hr : l.reverse with
  | nil => rw [hr] at hc; exact Option.noConfusion hc
  | cons d t =>
    rw [hr] at hc hs3
    have hd : d = c := by simpa using hc
    subst hd
    by_cases hw : d.isWhitespace = true
    · exfalso
      rw [List.dropWhile_cons, if_pos hw] at hs3
      have h1 := length_dropWhile_le Char.isWhitespace t
      have h2 := congrArg List.length hs3
      simp only [List.length_cons] at h2
      omega
    · simp only [Bool.not_eq_true] at hw
      exact hw

/-- A string that neither starts nor ends with whitespace strips to itself. -/
theorem pyStrip_no_ws {l : List Char}
    (h1 : ∀ c, l.head? = some c → c.isWhitespace = false)
    (h2 : ∀ c, l.reverse.head? = some c → c.isWhitespace = false) :
    pyStrip l = l := by
  cases l with
  | nil => rfl
  | cons c t =>
    have hc : c.isWhitespace = false := h1 c rfl
    have hd : (c :: t).dropWhile Char.isWhitespace = c :: t := by
      rw [List.dropWhile_cons, if_neg (by simp [hc])]
    unfold pyStrip
    rw [hd]
    cases hr : (c :: t).reverse with
    | nil => exact absurd (congrArg List.length hr) (by simp)
    | cons d t2 =>
      have hdws : d.isWhitespace = false := h2 d (by rw [hr]; rfl)
      rw [List.dropWhile_cons, if_neg (by simp [hdws]), ← hr, List.reverse_reverse]

theorem interc_head (sep : List Char) {p : List Char} (ps : List (List Char)) (hp : p ≠ []) :
    (List.intercalate sep (p :: ps)).head? = p.head? := by
  cases ps with
  | nil => rw [intercalate_single]
  | cons q rest =>
    rw [intercalate_cons₂]
    cases p with
    | nil => exact absurd rfl hp
    | cons c t => simp

theorem interc_last_mem (sep : List Char) :
    ∀ items : List (List Char), items ≠ [] → (∀ i ∈ items, i ≠ []) →
      ∃ i ∈ items, (List.intercalate sep items).reverse.head? = i.reverse.head? := by
  intro items
  induction items with
  | nil => intro h _; exact absurd rfl h
  | cons p ps ih =>
    intro _ hne
    cases ps with
    | nil => exact ⟨p, by simp, by rw [intercalate_single]⟩
    | cons q rest =>
      obtain ⟨i, hi, hh⟩ := ih (by simp) (fun j hj => hne j (by simp [hj]))
      refine ⟨i, by simp [hi], ?_⟩
      have hi_ne : i ≠ [] := hne i (by simp [hi])
      cases hir : i.reverse with
      | nil =>
        exfalso
        apply hi_ne
        rw [← List.reverse_reverse i, hir]
        rfl
      | cons c t =>
        rw [intercalate_cons₂, List.reverse_append, List.head?_append, hh, hir]
        simp

theorem pyStrip_intercalate {sep : List Char} {items : List (List Char)} (hne : items ≠ [])
    (h : ∀ i ∈ items, i ≠ [] ∧ pyStrip i = i) :
    pyStrip (List.intercalate sep items) = List.intercalate sep items := by
  apply pyStrip_no_ws
  · intro c hc
    cases items with
    | nil => exact absurd rfl hne
    | cons p ps =>
      rw [interc_head sep ps (h p (by simp)).1] at hc
      exact ws_head_false (h p (by simp)).2 hc
  · intro c hc
    obtain ⟨i, hi, hh⟩ := interc_last_mem sep items hne (fun i hi => (h i hi).1)
    rw [hh] at hc
    exact ws_last_false (h i hi).2 hc

theorem filter_map_strip_id {cat : List (List Char)}
    (h : ∀ i ∈ cat, i ≠ [] ∧ pyStrip i = i) :
    (cat.map pyStrip).filter (fun v => !v.isEmpty) = cat := by
  have hm : cat.map pyStrip = cat := by
    rw [show cat.map pyStrip = cat.map id from List.map_congr_left (fun i hi => (h i hi).2),
      List.map_id]
  rw [hm, List.filter_eq_self.mpr]
  intro a ha
  cases a with
  | nil => exact absurd rfl (h _ ha).1
  | cons c t => rfl

/-! ### Round trip of encode_entry and decode_entry -/

theorem encode_entry_clean {x : List (List (List Char))}
    (hx : ∀ cat ∈ x, cat ≠ [] ∧ ∀ i ∈ cat,
      i ≠ [] ∧ pyStrip i = i ∧ (',' : Char) ∉ i ∧ ('|' : Char) ∉ i) :
    encode_entry x = List.intercalate SEP_CAT (x.map (List.intercalate SEP_ITEM)) := by
  unfold encode_entry
  congr 1
  apply List.map_congr_left
  intro cat hcat
  rw [filter_map_strip_id (fun i hi => ⟨((hx cat hcat).2 i hi).1, ((hx cat hcat).2 i hi).2.1⟩)]

theorem decode_seg_intercalate {cat : List (List Char)} (hne : cat ≠ [])
    (hitems : ∀ i ∈ cat, i ≠ [] ∧ pyStrip i = i)
    (hcomma : ∀ i ∈ cat, (',' : Char) ∉ i) :
    decode_seg (List.intercalate SEP_ITEM cat) = cat := by
  have hps : pyStrip (List.intercalate SEP_ITEM cat) = List.intercalate SEP_ITEM cat :=
    pyStrip_intercalate hne hitems
  have hspl : splitL SEP_ITEM (List.intercalate SEP_ITEM cat) = cat :=
    split_join cat hne (fun i hi => comma_cond (hcomma i hi))
  have hempty : cat.isEmpty = false := by
    cases cat with
    | nil => exact absurd rfl hne
    | cons c t => rfl
  unfold decode_seg
  rw [hps, hspl, filter_map_strip_id hitems, hempty]
  simp

/-- C1 (amended): round-trip law for well-formed selections. When every
category holds at least one item and every item is non-empty, equal to its
own stripped form, and contains neither a comma nor a vertical bar, then
decoding the encoded line restores the per-category item lists exactly. -/
theorem decode_encode_entry (x : List (List (List Char)))
    (hlen : x.length = CATEGORIES.length)
    (hx : ∀ cat ∈ x, cat ≠ [] ∧ ∀ i ∈ cat,
      i ≠ [] ∧ pyStrip i = i ∧ (',' : Char) ∉ i ∧ ('|' : Char) ∉ i) :
    decode_entry (encode_entry x) = x := by
  have hxne : x ≠ [] := by
    intro h0
    rw [h0] at hlen
    simp [CATEGORIES] at hlen
  have hbar : ∀ p ∈ x.map (List.intercalate SEP_ITEM), ('|' : Char) ∉ p := by
    intro p hp hbp
    obtain ⟨cat, hcat, rfl⟩ := List.mem_map.mp hp
    rcases mem_intercalate hbp with hsep | ⟨i, hi, hci⟩
    · simp [SEP_ITEM] at hsep
    · exact ((hx cat hcat).2 i hi).2.2.2 hci
  have hstrip : ∀ p ∈ x.map (List.intercalate SEP_ITEM), pyStrip p = p := by
    intro p hp
    obtain ⟨cat, hcat, rfl⟩ := List.mem_map.mp hp
    exact pyStrip_intercalate (hx cat hcat).1
      (fun i hi => ⟨((hx cat hcat).2 i hi).1, ((hx cat hcat).2 i hi).2.1⟩)
  have hsplit : splitL SEP_CAT (encode_entry x) = x.map (List.intercalate SEP_ITEM) := by
    rw [encode_entry_clean hx]
    exact split_join (x.map (List.intercalate SEP_ITEM)) (by simpa using hxne)
      (fun p hp => sepcat_cond (hbar p hp))
  have hmapstrip : (x.map (List.intercalate SEP_ITEM)).map pyStrip
      = x.map (List.intercalate SEP_ITEM) := by
    rw [show (x.map (List.intercalate SEP_ITEM)).map pyStrip
        = (x.map (List.intercalate SEP_ITEM)).map id from
      List.map_congr_left (fun p hp => hstrip p hp), List.map_id]
  have hlen4 : (x.map (List.intercalate SEP_ITEM)).length = CATEGORIES.length := by
    rw [List.length_map, hlen]
  have hdp : decode_parts (encode_entry x) = x.map (List.intercalate SEP_ITEM) := by
    unfold decode_parts
    rw [hsplit, hmapstrip, if_neg (by omega), ← hlen4, List.take_length]
  unfold decode_entry
  rw [hdp, List.map_map]
  rw [show x.map (decode_seg ∘ List.intercalate SEP_ITEM) = x.map id from
    List.map_congr_left (fun cat hcat =>
      decode_seg_intercalate (hx cat hcat).1
        (fun i hi => ⟨((hx cat hcat).2 i hi).1, ((hx cat hcat).2 i hi).2.1⟩)
        (fun i hi => ((hx cat hcat).2 i hi).2.2.1)), List.map_id]

/-! ### Shape of decode_parts -/

/-- C2: decoding always yields exactly one segment per category: with fewer
raw segments than the four categories, the result is one prepended empty
segment, the raw segments, then empty segments up to length four; with four
or more raw segments, the result is the first four. -/
theorem decode_parts_shape (line : List Char) :
    (decode_parts line).length = CATEGORIES.length
    ∧ (decode_entry line).length = CATEGORIES.length
    ∧ decode_parts line =
        (if ((splitL SEP_CAT line).map pyStrip).length < CATEGORIES.length then
          ([[]] ++ (splitL SEP_CAT line).map pyStrip)
            ++ List.replicate
                (CATEGORIES.length - ((splitL SEP_CAT line).map pyStrip).length - 1)
                ([] : List Char)
        else ((splitL SEP_CAT line).map pyStrip).take CATEGORIES.length) := by
  have hc : CATEGORIES.length = 4 := rfl
  have hmain : decode_parts line =
      (if ((splitL SEP_CAT line).map pyStrip).length < CATEGORIES.length then
        ([[]] ++ (splitL SEP_CAT line).map pyStrip)
          ++ List.replicate
              (CATEGORIES.length - ((splitL SEP_CAT line).map pyStrip).length - 1)
              ([] : List Char)
      else ((splitL SEP_CAT line).map pyStrip).take CATEGORIES.length) := by
    unfold decode_parts
    by_cases h : ((splitL SEP_CAT line).map pyStrip).length < CATEGORIES.length
    · rw [if_pos h, if_pos h]
      have hplen : (([[]] ++ (splitL SEP_CAT line).map pyStrip)
          ++ List.replicate
              (CATEGORIES.length - ((splitL SEP_CAT line).map pyStrip).length - 1)
              ([] : List Char)).length = CATEGORIES.length := by
        rw [hc] at h ⊢
        simp only [List.length_append, List.length_replicate, List.length_cons,
          List.length_nil]
        omega
      exact List.take_of_length_le (le_of_eq hplen)
    · rw [if_neg h, if_neg h]
  have hlen1 : (decode_parts line).length = CATEGORIES.length := by
    rw [hmain]
    by_cases h : ((splitL SEP_CAT line).map pyStrip).length < CATEGORIES.length
    · rw [if_pos h]
      rw [hc] at h ⊢
      simp only [List.length_append, List.length_replicate, List.length_cons,
        List.length_nil]
      omega
    · rw [if_neg h, List.length_take]
      have h2 := Nat.not_lt.mp h
      omega
  refine ⟨hlen1, ?_, hmain⟩
  unfold decode_entry
  rw [List.length_map, hlen1]

/-! ### The calendar grid at February 2026 -/

/-- C3: the embedded grid code evaluated at February 2026, whose first day
is a Sunday: calendar.monthrange reports weekday 6 (Monday-first
convention), so day 1 is placed in grid column 6 — the Saturday column of
the Sunday-first header row — and the day rows extend to grid row 5, i.e.
five week rows, not the four the claim derives from a Sunday-first weekday
of 0. -/
theorem month_grid_feb2026 :
    monthrange 2026 2 = (6, 28)
    ∧ (month_grid 2026 2).head? = some (1, 1, 6)
    ∧ ((month_grid 2026 2).map (fun t => t.2.1)).max? = some 5
    ∧ WEEK_HEADERS.getD 0 "" = "일"
    ∧ WEEK_HEADERS.getD 6 "" = "토" := by
  refine ⟨by decide, by decide, by decide, rfl, rfl⟩

/-! ### Day selection never writes the plan model -/

/-- C7: selecting a different day after editing the selection controls of
the currently selected day leaves the in-memory plans mapping unchanged;
selection changes never write plan entries. -/
theorem select_day_preserves_plans (st : AppState) (d : Nat) (k : String × Nat)
    (v : List Char) (d2 : Nat) (_hsel : st.selected_day = some d) (_hne : d2 ≠ d) :
    (select_day (edit_var st k v) d2).plans = st.plans := by
  unfold select_day edit_var hide_right_panel
  dsimp only
  split
  · rfl
  · rfl

/-- C7 witness: a concrete state with day 1 selected, one edited control and
a switch to day 2. -/
theorem select_day_preserves_plans_witness :
    (select_day
      (edit_var
        { menus := []
          plans := [("2026-02", [("1", ['a'])])]
          day_slots := []
          slots_per_category := _default_slots
          selected_day := some 1
          category_vars := build_category_rows _default_slots
          current_year := 2026
          current_month := 2 }
        ("주식", 0) ['x']) 2).plans
      = [("2026-02", [("1", ['a'])])] :=
  select_day_preserves_plans _ 1 ("주식", 0) ['x'] 2 rfl (by decide)

/-! ### The export grid: menu rows per week -/

theorem le_foldl_max (l : List Nat) (a : Nat) : a ≤ l.foldl max a := by
  induction l generalizing a with
  | nil => exact le_refl a
  | cons x t ih => exact le_trans (Nat.le_max_left a x) (ih (max a x))

theorem mem_le_foldl_max {x : Nat} : ∀ (l : List Nat) (a : Nat), x ∈ l → x ≤ l.foldl max a := by
  intro l
  induction l with
  | nil => intro a hx; simp at hx
  | cons y t ih =>
    intro a hx
    rcases List.mem_cons.mp hx with rfl | h
    · exact le_trans (Nat.le_max_right a x) (le_foldl_max t (max a x))
    · exact ih (max a y) h

theorem foldl_max_eq_or_mem : ∀ (l : List Nat) (a : Nat), l.foldl max a = a ∨ l.foldl max a ∈ l := by
  intro l
  induction l with
  | nil => intro a; exact Or.inl rfl
  | cons y t ih =>
    intro a
    rcases ih (max a y) with h | h
    · rcases Nat.le_total a y with hay | hya
      · right
        rw [List.foldl_cons, h, Nat.max_eq_right hay]
        exact List.mem_cons_self y t
      · left
        rw [List.foldl_cons, h, Nat.max_eq_left hya]
    · right
      exact List.mem_cons_of_mem y h

theorem getD_map_range {α : Type} (n : Nat) (f : Nat → α) (i : Nat) (hi : i < n) (d : α) :
    ((List.range n).map f).getD i d = f i := by
  rw [List.getD_eq_getElem?_getD, List.getElem?_map, List.getElem?_range hi]
  rfl

/-- Properties of the menu-row block for an arbitrary week list. -/
theorem week_menu_rows_spec (wd : List (Option Nat × List (List Char))) :
    3 ≤ (week_menu_rows wd).length
    ∧ (∀ p ∈ wd, p.2.length ≤ (week_menu_rows wd).length)
    ∧ ((week_menu_rows wd).length = 3
        ∨ ∃ p ∈ wd, p.2.length = (week_menu_rows wd).length)
    ∧ ∀ r col, r < (week_menu_rows wd).length → col < 7 →
        ((week_menu_rows wd).getD r []).getD col []
          = (if r < (wd.getD col (none, [])).2.length
             then (wd.getD col (none, [])).2.getD r []
             else []) := by
  have hlen : (week_menu_rows wd).length = menu_rows wd := by
    unfold week_menu_rows
    rw [List.length_map, List.length_range]
  refine ⟨?_, ?_, ?_, ?_⟩
  · rw [hlen]
    exact Nat.le_max_left 3 _
  · intro p hp
    rw [hlen]
    unfold menu_rows
    exact le_trans
      (mem_le_foldl_max (wd.map (fun p => p.2.length)) 0 (List.mem_map_of_mem _ hp))
      (Nat.le_max_right 3 _)
  · rw [hlen]
    unfold menu_rows
    rcases foldl_max_eq_or_mem (wd.map (fun p => p.2.length)) 0 with h | h
    · left
      rw [h]
      rfl
    · by_cases h3 : (wd.map (fun p => p.2.length)).foldl max 0 ≤ 3
      · left
        exact Nat.max_eq_left h3
      · right
        obtain ⟨p, hp, hlenp⟩ := List.mem_map.mp h
        exact ⟨p, hp, by rw [hlenp, Nat.max_eq_right (le_of_lt (Nat.lt_of_not_le h3))]⟩
  · intro r col hr hcol
    rw [hlen] at hr
    unfold week_menu_rows
    rw [getD_map_range (menu_rows wd) _ r hr, getD_map_range 7 _ col hcol]

/-- C6: for every week of the export, the number of emitted menu rows is
max(3, the largest flattened item count over the week's seven days): it is
at least 3, no day of the week has more items, and it is 3 or attained by
some day; and the cell in menu row r for column col holds that day's r-th
flattened item, or is blank when the day has fewer than r+1 items. -/
theorem export_menu_rows_spec (plan : List (String × List Char)) (fw nd wr : Nat) :
    3 ≤ (week_menu_rows (week_days plan fw nd wr)).length
    ∧ (∀ p ∈ week_days plan fw nd wr,
        p.2.length ≤ (week_menu_rows (week_days plan fw nd wr)).length)
    ∧ ((week_menu_rows (week_days plan fw nd wr)).length = 3
        ∨ ∃ p ∈ week_days plan fw nd wr,
            p.2.length = (week_menu_rows (week_days plan fw nd wr)).length)
    ∧ ∀ r col, r < (week_menu_rows (week_days plan fw nd wr)).length → col < 7 →
        ((week_menu_rows (week_days plan fw nd wr)).getD r []).getD col []
          = (if r < ((week_days plan fw nd wr).getD col (none, [])).2.length
             then ((week_days plan fw nd wr).getD col (none, [])).2.getD r []
             else []) :=
  week_menu_rows_spec (week_days plan fw nd wr)

/-- C6 witness: a week whose first day selects five items produces five menu
rows, and row 4 shows the fifth item for that day. -/
theorem export_menu_rows_witness :
    3 ≤ (week_menu_rows (week_days [("1", "a,b,c | d | e".toList)] 0 28 0)).length
    ∧ ((week_menu_rows (week_days [("1", "a,b,c | d | e".toList)] 0 28 0)).getD 4 []).getD 0 []
        = (if 4 < ((week_days [("1", "a,b,c | d | e".toList)] 0 28 0).getD 0 (none, [])).2.length
           then ((week_days [("1", "a,b,c | d | e".toList)] 0 28 0).getD 0 (none, [])).2.getD 4 []
           else []) :=
  ⟨(export_menu_rows_spec [("1", "a,b,c | d | e".toList)] 0 28 0).1,
   (export_menu_rows_spec [("1", "a,b,c | d | e".toList)] 0 28 0).2.2.2 4 0
     (by decide) (by decide)⟩

/-! ### Slot counts never drop below one -/

theorem lookup_map_pair {β : Type} (g : String → β) :
    ∀ (l : List String) (c : String), c ∈ l →
      (l.map (fun x => (x, g x))).lookup c = some (g c) := by
  intro l
  induction l with
  | nil => intro c hc; simp at hc
  | cons a t ih =>
    intro c hc
    by_cases hca : c = a
    · subst hca
      simp [List.lookup]
    · rcases List.mem_cons.mp hc with h | h
      · exact absurd h hca
      · have hbeq : (c == a) = false := beq_eq_false_iff_ne.mpr hca
        simp only [List.map_cons, List.lookup, hbeq]
        exact ih c h

/-- Any slot count produced by the loading path of _select_day is at least
one. -/
theorem select_day_slots_lookup_ge (saved : Option (List (String × Int)))
    (c : String) (hc : c ∈ CATEGORIES) (n : Int)
    (h : (select_day_slots saved).lookup c = some n) : 1 ≤ n := by
  have hdef : _default_slots.lookup c = some 1 :=
    lookup_map_pair (fun _ => (1 : Int)) CATEGORIES c hc
  cases saved with
  | none =>
    simp only [select_day_slots] at h
    rw [hdef] at h
    cases h
    exact le_refl 1
  | some d =>
    simp only [select_day_slots] at h
    by_cases hd : d.isEmpty
    · rw [if_pos hd, hdef] at h
      cases h
      exact le_refl 1
    · rw [if_neg hd] at h
      have hm : (CATEGORIES.map (fun x => (x, max 1 ((d.lookup x).getD 1)))).lookup c
          = some (max 1 ((d.lookup c).getD 1)) :=
        lookup_map_pair (fun x => max 1 ((d.lookup x).getD 1)) CATEGORIES c hc
      rw [hm] at h
      cases h
      exact le_max_left 1 _

/-- C5: the slot count in use is always at least 1: defaults are one per
category, stored values are floored at 1 when a day is selected, and
removing a slot row is refused when the count is already 1. -/
theorem slots_ge_one :
    (∀ c ∈ CATEGORIES, _default_slots.lookup c = some 1)
    ∧ (∀ saved c n, c ∈ CATEGORIES → (select_day_slots saved).lookup c = some n → 1 ≤ n)
    ∧ (∀ slots cat, (slots.lookup cat).getD 1 = 1 → remove_slot slots cat = none) := by
  refine ⟨by decide, ?_, ?_⟩
  · intro saved c n hc hl
    exact select_day_slots_lookup_ge saved c hc n hl
  · intro slots cat h
    unfold remove_slot
    rw [if_pos (le_of_eq h)]

/-- C5 witness: the default count for the first category, a stored count of
3 staying at least 1, and a refused removal at count 1. -/
theorem slots_ge_one_witness :
    _default_slots.lookup "주식" = some 1
    ∧ (1 : Int) ≤ 3
    ∧ remove_slot [("주식", 1)] "주식" = none :=
  ⟨slots_ge_one.1 "주식" (by decide),
   slots_ge_one.2.1 (some [("주식", 3)]) "주식" 3 (by decide) (by decide),
   slots_ge_one.2.2 [("주식", 1)] "주식" (by decide)⟩

/-! ### Dictionary facts for the storage model -/

theorem lookup_cons_ne {β : Type} {k a : String} (b : β) (t : List (String × β))
    (h : (k == a) = false) : ((a, b) :: t).lookup k = t.lookup k := by
  rw [List.lookup_cons, h]

theorem lookup_append (d1 d2 : List (String × Json)) (k : String) :
    (d1 ++ d2).lookup k = if (d1.lookup k).isSome then d1.lookup k else d2.lookup k := by
  induction d1 with
  | nil => simp
  | cons p t ih =>
    obtain ⟨a, b⟩ := p
    by_cases hka : k = a
    · subst hka
      rw [List.cons_append, List.lookup_cons_self, List.lookup_cons_self]
      rfl
    · have hbeq : (k == a) = false := beq_eq_false_iff_ne.mpr hka
      rw [List.cons_append, lookup_cons_ne b _ hbeq, lookup_cons_ne b t hbeq, ih]

theorem lookup_map_set_self {k : String} {v : Json} :
    ∀ d : List (String × Json), (d.lookup k).isSome →
      (d.map (fun p => if p.1 = k then (k, v) else p)).lookup k = some v := by
  intro d
  induction d with
  | nil => intro hs; simp at hs
  | cons p t ih =>
    intro hs
    obtain ⟨a, b⟩ := p
    by_cases hak : a = k
    · subst hak
      have hhead : (if ((a, b) : String × Json).1 = a then (a, v) else (a, b))
          = (a, v) := by simp
      rw [List.map_cons, hhead, List.lookup_cons_self]
    · have hbeq : (k == a) = false := beq_eq_false_iff_ne.mpr (fun h => hak h.symm)
      have hhead : (if ((a, b) : String × Json).1 = k then (k, v) else (a, b))
          = (a, b) := by simp [hak]
      rw [lookup_cons_ne b t hbeq] at hs
      rw [List.map_cons, hhead, lookup_cons_ne b _ hbeq]
      exact ih hs

theorem lookup_map_set_ne {k k2 : String} {v : Json} (hne : k2 ≠ k) :
    ∀ d : List (String × Json),
      (d.map (fun p => if p.1 = k then (k, v) else p)).lookup k2 = d.lookup k2 := by
  intro d
  induction d with
  | nil => rfl
  | cons p t ih =>
    obtain ⟨a, b⟩ := p
    by_cases hak : a = k
    · subst hak
      have hbeq : (k2 == a) = false := beq_eq_false_iff_ne.mpr hne
      have hhead : (if ((a, b) : String × Json).1 = a then (a, v) else (a, b))
          = (a, v) := by simp
      rw [List.map_cons, hhead, lookup_cons_ne v _ hbeq, lookup_cons_ne b t hbeq]
      exact ih
    · have hhead : (if ((a, b) : String × Json).1 = k then (k, v) else (a, b))
          = (a, b) := by simp [hak]
      by_cases hk2 : k2 = a
      · subst hk2
        rw [List.map_cons, hhead, List.lookup_cons_self, List.lookup_cons_self]
      · have hbeq : (k2 == a) = false := beq_eq_false_iff_ne.mpr hk2
        rw [List.map_cons, hhead, lookup_cons_ne b _ hbeq, lookup_cons_ne b t hbeq]
        exact ih

theorem lookup_dictSet_self (d : List (String × Json)) (k : String) (v : Json) :
    (dictSet d k v).lookup k = some v := by
  unfold dictSet
  by_cases hs : (d.lookup k).isSome
  · rw [if_pos hs]
    exact lookup_map_set_self d hs
  · rw [if_neg hs, lookup_append, if_neg hs, List.lookup_cons_self]

theorem lookup_dictSet_ne (d : List (String × Json)) {k k2 : String} (v : Json)
    (hne : k2 ≠ k) : (dictSet d k v).lookup k2 = d.lookup k2 := by
  unfold dictSet
  by_cases hs : (d.lookup k).isSome
  · rw [if_pos hs]
    exact lookup_map_set_ne hne d
  · rw [if_neg hs, lookup_append]
    have hkv : ([(k, v)] : List (String × Json)).lookup k2 = none := by
      have hbeq : (k2 == k) = false := beq_eq_false_iff_ne.mpr hne
      rw [lookup_cons_ne v [] hbeq, List.lookup_nil]
    rw [hkv]
    cases hh : d.lookup k2 <;> simp [hh]

/-! ### The default-merge loop -/

theorem foldl_mergeStep_not_mem :
    ∀ (cats : List String) (d : List (String × Json)) (k : String), k ∉ cats →
      (cats.foldl mergeStep d).lookup k = d.lookup k := by
  intro cats
  induction cats with
  | nil => intro d k _; rfl
  | cons c cs ih =>
    intro d k hk
    have hkc : k ≠ c := fun h => hk (h ▸ List.mem_cons_self c cs)
    rw [List.foldl_cons, ih _ _ (fun h => hk (List.mem_cons_of_mem c h))]
    unfold mergeStep
    split
    · rfl
    · exact lookup_dictSet_ne d _ hkc

theorem foldl_mergeStep_mem :
    ∀ (cats : List String), cats.Nodup →
      ∀ (d : List (String × Json)) (k : String), k ∈ cats →
        (cats.foldl mergeStep d).lookup k =
          if truthy ((d.lookup k).getD .null) then d.lookup k
          else some ((DEFAULT_MENUS.lookup k).getD .null) := by
  intro cats
  induction cats with
  | nil => intro _ d k hk; simp at hk
  | cons c cs ih =>
    intro hnd d k hk
    rw [List.foldl_cons]
    rcases List.mem_cons.mp hk with rfl | hmem
    · have hkcs : k ∉ cs := (List.nodup_cons.mp hnd).1
      rw [foldl_mergeStep_not_mem cs _ k hkcs]
      unfold mergeStep
      by_cases ht : truthy ((d.lookup k).getD .null) = true
      · rw [if_pos ht, if_pos ht]
      · rw [if_neg ht, if_neg ht]
        exact lookup_dictSet_self d k _
    · have hkc : k ≠ c := by
        intro h
        subst h
        exact (List.nodup_cons.mp hnd).1 hmem
      have hms : (mergeStep d c).lookup k = d.lookup k := by
        unfold mergeStep
        split
        · rfl
        · exact lookup_dictSet_ne d _ hkc
      rw [ih (List.nodup_cons.mp hnd).2 (mergeStep d c) k hmem, hms]

/-! ### Storage claims -/

theorem load_menus_legacy_ok (mfs : FileState) (hm : isObjOrAbsent mfs = true) :
    ∃ m, load_menus_legacy mfs = Except.ok m := by
  cases mfs with
  | doc j =>
    cases j with
    | obj mf => exact ⟨_, rfl⟩
    | null => simp [isObjOrAbsent] at hm
    | bool b => simp [isObjOrAbsent] at hm
    | num n => simp [isObjOrAbsent] at hm
    | str s => simp [isObjOrAbsent] at hm
    | arr xs => simp [isObjOrAbsent] at hm
  | missing => exact ⟨_, rfl⟩
  | unreadable => exact ⟨_, rfl⟩
  | invalid => exact ⟨_, rfl⟩

theorem load_plan_legacy_obj (pfs : FileState) (hp : isObjOrAbsent pfs = true) :
    ∃ pf, load_plan_legacy pfs = Json.obj pf := by
  cases pfs with
  | doc j =>
    cases j with
    | obj pf => exact ⟨pf, rfl⟩
    | null => simp [isObjOrAbsent] at hp
    | bool b => simp [isObjOrAbsent] at hp
    | num n => simp [isObjOrAbsent] at hp
    | str s => simp [isObjOrAbsent] at hp
    | arr xs => simp [isObjOrAbsent] at hp
  | missing => exact ⟨_, rfl⟩
  | unreadable => exact ⟨_, rfl⟩
  | invalid => exact ⟨_, rfl⟩

/-- C4 counterexample: the consolidated file holding the well-formed JSON
document [] — an arbitrary JSON document in the sense of the claim — makes
load_all raise an AttributeError (data.get on a list) instead of returning
a state, so loading does not survive every malformed-or-arbitrary document. -/
theorem load_all_raises_cex :
    load_all ⟨FileState.doc (Json.arr []), FileState.missing, FileState.missing⟩
      = Except.error PyErr.attributeError := rfl

/-- C4 (amended): load_all returns a state and never raises provided every
file that exists and parses holds a JSON object at top level and the
consolidated menus field, when truthy, is itself an object; in particular
missing files, unreadable files (IOError) and invalid JSON (decode errors)
are always swallowed. -/
theorem load_all_total_amended (fs : FS) (hd : consOk fs.data = true)
    (hm : isObjOrAbsent fs.menus = true) (hp : isObjOrAbsent fs.plan = true) :
    ∃ r, load_all fs = Except.ok r := by
  obtain ⟨dfs, mfs, pfs⟩ := fs
  obtain ⟨m, hm2⟩ := load_menus_legacy_ok mfs hm
  obtain ⟨pf, hp2⟩ := load_plan_legacy_obj pfs hp
  have hfb : load_fallback mfs pfs
      = Except.ok (m, (pf.lookup "plans").getD (Json.obj []), Json.obj []) := by
    unfold load_fallback
    rw [hm2, hp2]
  cases dfs with
  | doc j =>
    cases j with
    | obj d =>
      unfold consOk at hd
      dsimp only at hd
      unfold load_all
      dsimp only
      cases hmf : (d.lookup "menus").getD Json.null with
      | obj mf =>
        by_cases ht : truthy (Json.obj mf) = true
        · rw [if_pos ht]
          exact ⟨_, rfl⟩
        · rw [if_neg ht]
          exact ⟨_, hfb⟩
      | null =>
        rw [if_neg (by simp [truthy])]
        exact ⟨_, hfb⟩
      | bool b =>
        rw [hmf] at hd
        dsimp only at hd
        rw [if_neg (by simp_all)]
        exact ⟨_, hfb⟩
      | num n =>
        rw [hmf] at hd
        dsimp only at hd
        rw [if_neg (by simp_all)]
        exact ⟨_, hfb⟩
      | str s =>
        rw [hmf] at hd
        dsimp only at hd
        rw [if_neg (by simp_all)]
        exact ⟨_, hfb⟩
      | arr xs =>
        rw [hmf] at hd
        dsimp only at hd
        rw [if_neg (by simp_all)]
        exact ⟨_, hfb⟩
    | null => simp [consOk] at hd
    | bool b => simp [consOk] at hd
    | num n => simp [consOk] at hd
    | str s => simp [consOk] at hd
    | arr xs => simp [consOk] at hd
  | missing => exact ⟨_, hfb⟩
  | unreadable => exact ⟨_, hfb⟩
  | invalid => exact ⟨_, hfb⟩

/-- C4 witness: an unparseable consolidated file with an unreadable legacy
menu file and no plan file loads without raising. -/
theorem load_all_total_witness :
    ∃ r, load_all ⟨FileState.invalid, FileState.unreadable, FileState.missing⟩
      = Except.ok r :=
  load_all_total_amended
    ⟨FileState.invalid, FileState.unreadable, FileState.missing⟩ rfl rfl rfl

/-- C8: loading with none of the three files present yields the built-in
default menu catalog — whose keys are exactly the four categories — an
empty plans mapping and an empty slot-configuration mapping. -/
theorem load_all_no_files_defaults :
    load_all ⟨FileState.missing, FileState.missing, FileState.missing⟩
      = Except.ok (Json.obj DEFAULT_MENUS, Json.obj [], Json.obj [])
    ∧ DEFAULT_MENUS.map Prod.fst = CATEGORIES :=
  ⟨rfl, rfl⟩

/-- C9: with the consolidated file absent and the legacy menu file holding a
catalog object, the loaded catalog is the legacy catalog in which every
category that is absent or falsy gets the built-in default item list, all
other keys passing through unchanged; the slot mapping comes back empty. -/
theorem load_all_legacy_menus (mf : List (String × Json)) (pfs : FileState)
    (hp : isObjOrAbsent pfs = true) :
    ∃ p, load_all ⟨FileState.missing, FileState.doc (Json.obj mf), pfs⟩
        = Except.ok (Json.obj (mergeDefaults mf), p, Json.obj [])
    ∧ (∀ c ∈ CATEGORIES, (mergeDefaults mf).lookup c =
        (if truthy ((mf.lookup c).getD Json.null) then mf.lookup c
         else some ((DEFAULT_MENUS.lookup c).getD Json.null)))
    ∧ (∀ k, k ∉ CATEGORIES → (mergeDefaults mf).lookup k = mf.lookup k) := by
  obtain ⟨pf, hp2⟩ := load_plan_legacy_obj pfs hp
  refine ⟨(pf.lookup "plans").getD (Json.obj []), ?_, ?_, ?_⟩
  · show load_fallback (FileState.doc (Json.obj mf)) pfs = _
    unfold load_fallback
    rw [hp2]
    rfl
  · intro c hc
    exact foldl_mergeStep_mem CATEGORIES (by decide) mf c hc
  · intro k hk
    exact foldl_mergeStep_not_mem CATEGORIES mf k hk

/-- C9 witness: a legacy catalog with one kept category and one empty one. -/
theorem load_all_legacy_menus_witness :
    ∃ p, load_all ⟨FileState.missing,
        FileState.doc (Json.obj
          [("주식", Json.arr [Json.str "밥"]), ("반찬", Json.arr [])]),
        FileState.missing⟩
        = Except.ok (Json.obj (mergeDefaults
            [("주식", Json.arr [Json.str "밥"]), ("반찬", Json.arr [])]),
          p, Json.obj [])
    ∧ (∀ c ∈ CATEGORIES,
        (mergeDefaults [("주식", Json.arr [Json.str "밥"]), ("반찬", Json.arr [])]).lookup c =
        (if truthy (((([("주식", Json.arr [Json.str "밥"]), ("반찬", Json.arr [])]) :
              List (String × Json)).lookup c).getD Json.null)
         then (([("주식", Json.arr [Json.str "밥"]), ("반찬", Json.arr [])]) :
              List (String × Json)).lookup c
         else some ((DEFAULT_MENUS.lookup c).getD Json.null)))
    ∧ (∀ k, k ∉ CATEGORIES →
        (mergeDefaults [("주식", Json.arr [Json.str "밥"]), ("반찬", Json.arr [])]).lookup k =
        (([("주식", Json.arr [Json.str "밥"]), ("반찬", Json.arr [])]) :
              List (String × Json)).lookup k) :=
  load_all_legacy_menus
    [("주식", Json.arr [Json.str "밥"]), ("반찬", Json.arr [])] FileState.missing rfl

/-- C10: a parsed consolidated object whose menus field is absent, null or
empty is discarded wholesale: loading behaves exactly as if the file were
missing, so any plan or slot data the document held is lost — the returned
slot configuration is empty and the returned plans come from the legacy
plan file. -/
theorem load_all_falsy_menus_fallback (d : List (String × Json)) (mfs pfs : FileState)
    (h : (d.lookup "menus").getD Json.null = Json.null
      ∨ (d.lookup "menus").getD Json.null = Json.obj []
      ∨ (d.lookup "menus").getD Json.null = Json.arr []
      ∨ (d.lookup "menus").getD Json.null = Json.str "") :
    load_all ⟨FileState.doc (Json.obj d), mfs, pfs⟩
        = load_all ⟨FileState.missing, mfs, pfs⟩
    ∧ ∀ m p s, load_all ⟨FileState.doc (Json.obj d), mfs, pfs⟩ = Except.ok (m, p, s) →
        s = Json.obj []
        ∧ ∀ pf, load_plan_legacy pfs = Json.obj pf →
            p = (pf.lookup "plans").getD (Json.obj []) := by
  have ht : truthy ((d.lookup "menus").getD Json.null) = false := by
    rcases h with h | h | h | h <;> rw [h] <;> rfl
  have heq : load_all ⟨FileState.doc (Json.obj d), mfs, pfs⟩ = load_fallback mfs pfs := by
    unfold load_all
    dsimp only
    rw [if_neg (by simp [ht])]
  refine ⟨heq, ?_⟩
  intro m p s hok
  rw [heq] at hok
  unfold load_fallback at hok
  cases hm2 : load_menus_legacy mfs with
  | error e =>
    rw [hm2] at hok
    exact absurd hok (by simp)
  | ok menus =>
    rw [hm2] at hok
    cases hp2 : load_plan_legacy pfs with
    | obj pf =>
      rw [hp2] at hok
      dsimp only at hok
      simp only [Except.ok.injEq, Prod.mk.injEq] at hok
      refine ⟨hok.2.2.symm, ?_⟩
      intro pf2 hpf2
      injection hpf2 with h4
      subst h4
      exact hok.2.1.symm
    | null =>
      rw [hp2] at hok
      exact absurd hok (by simp)
    | bool b =>
      rw [hp2] at hok
      exact absurd hok (by simp)
    | num n =>
      rw [hp2] at hok
      exact absurd hok (by simp)
    | str s2 =>
      rw [hp2] at hok
      exact absurd hok (by simp)
    | arr xs =>
      rw [hp2] at hok
      exact absurd hok (by simp)

/-- C10 witness: a consolidated document with a null menus field but real
plan and slot data, a missing legacy menu file and a missing legacy plan
file. -/
theorem load_all_falsy_menus_witness :
    load_all ⟨FileState.doc (Json.obj
        [("menus", Json.null), ("plans", Json.str "p"), ("day_slots", Json.str "d")]),
        FileState.missing, FileState.missing⟩
      = load_all ⟨FileState.missing, FileState.missing, FileState.missing⟩
    ∧ ∀ m p s, load_all ⟨FileState.doc (Json.obj
        [("menus", Json.null), ("plans", Json.str "p"), ("day_slots", Json.str "d")]),
        FileState.missing, FileState.missing⟩ = Except.ok (m, p, s) →
        s = Json.obj []
        ∧ ∀ pf, load_plan_legacy FileState.missing = Json.obj pf →
            p = (pf.lookup "plans").getD (Json.obj []) :=
  load_all_falsy_menus_fallback
    [("menus", Json.null), ("plans", Json.str "p"), ("day_slots", Json.str "d")]
    FileState.missing FileState.missing (Or.inl rfl)

/-- C1 counterexample: the selection [["a,b"], ["c"], ["d"], ["e"]] has
exactly four category segments and every item non-empty after stripping,
yet decoding its encoded line splits "a,b" at the comma and returns a
different selection, refuting the round-trip claim as stated. -/
theorem decode_encode_entry_cex :
    ([[['a', ',', 'b']], [['c']], [['d']], [['e']]].length = CATEGORIES.length
      ∧ ∀ cat ∈ [[['a', ',', 'b']], [['c']], [['d']], [['e']]],
          ∀ i ∈ cat, pyStrip i ≠ [])
    ∧ decode_entry (encode_entry [[['a', ',', 'b']], [['c']], [['d']], [['e']]])
        ≠ [[['a', ',', 'b']], [['c']], [['d']], [['e']]] := by
  decide

/-- C1 witness: a fully clean selection round-trips. -/
theorem decode_encode_entry_witness :
    decode_entry (encode_entry [[['a']], [['b'], ['c']], [['d']], [['e']]])
      = [[['a']], [['b'], ['c']], [['d']], [['e']]] :=
  decode_encode_entry [[['a']], [['b'], ['c']], [['d']], [['e']]]
    (by decide) (by decide)
